import Mathlib

/-!
Verification development for the `trpc2openapi` package
(`src/packages/trpc2openapi/src/index.ts`).

The program walks a tRPC router record (a nested string-keyed mapping whose
leaves are procedure definitions) and produces an OpenAPI 3.1 document.
JavaScript objects are modelled as association lists over `String` keys with
JavaScript assignment semantics: writing to an existing key updates the value
in place (keeping the position of the key), writing to a fresh key appends it, and
`Object.assign` folds such writes over the update list.  The external
converter `z.toJSONSchema` is an opaque collaborator and is modelled as an
arbitrary function parameter `toJSONSchema : ZodType → Schema`.
-/

/-- JavaScript property write `m[k] = v`: an existing key keeps its position
and gets the new value; a fresh key is appended at the end. -/
def setKey {α : Type} (m : List (String × α)) (k : String) (v : α) :
    List (String × α) :=
  if m.any (fun p => p.1 == k) then
    m.map (fun p => if p.1 == k then (k, v) else p)
  else
    m ++ [(k, v)]

/-- JavaScript property read `m[k]` (`undefined` is `none`). -/
def getKey {α : Type} (m : List (String × α)) (k : String) : Option α :=
  (m.find? (fun p => p.1 == k)).map (fun p => p.2)

/-- JavaScript `Object.assign(m, updates)`: fold the property writes of
`updates` over `m`, in order. -/
def objAssign {α : Type} (m updates : List (String × α)) :
    List (String × α) :=
  updates.foldl (fun acc p => setKey acc p.1 p.2) m

/-- An opaque Zod type description (`z.ZodType`); the core never looks
inside it beyond handing it to the converter. -/
structure ZodType where
  id : Nat
deriving DecidableEq

/-- JSON-schema fragments.  `raw` stands for an arbitrary fragment returned
by the external converter; `obj` is the only shape the core itself builds
(the `{type, properties, required}` envelope of the success response). -/
inductive Schema : Type where
  | raw (n : Nat)
  | obj (type : String) (properties : List (String × Schema))
      (required : List String)

/-- The `_def.type` field of a tRPC procedure: `query`, `mutation` or `subscription`. -/
inductive ProcedureType : Type where
  | query
  | mutation
  | subscription
deriving DecidableEq

/-- The `_def` payload of `AnyProcedure` in the source: a procedure type, an
array of input Zod types, and an optional output Zod type. -/
structure ProcedureDef where
  type : ProcedureType
  inputs : List ZodType
  output : Option ZodType

/-- A `RouterRecord` entry: either a procedure (`_def.procedure === true`)
or a nested router record.  The `isProcedure` type guard of the source becomes
constructor dispatch. -/
inductive RouterEntry : Type where
  | procedure (d : ProcedureDef)
  | record (entries : List (String × RouterEntry))

/-- A `RouterRecord`: string-keyed entries in declaration order. -/
abbrev RouterRec : Type := List (String × RouterEntry)

/-- The `OpenAPIV3_1.MediaTypeObject` type (the part the program populates). -/
structure MediaTypeObject where
  schema : Schema

/-- The `OpenAPIV3_1.ParameterObject` type (the part the program populates). -/
structure ParameterObject where
  name : String
  «in» : String
  content : List (String × MediaTypeObject)

/-- The `OpenAPIV3_1.RequestBodyObject` type (the part the program populates). -/
structure RequestBodyObject where
  required : Bool
  content : List (String × MediaTypeObject)

/-- The `OpenAPIV3_1.ResponseObject` type (the part the program populates):
`content` is absent for the bodyless default response. -/
structure ResponseObject where
  description : String
  content : Option (List (String × MediaTypeObject))

/-- The `OpenAPIV3_1.OperationObject` type (the part the program populates).
Fields other than `operationId` start out absent and are conditionally
assigned, exactly as in the source. -/
structure OperationObject where
  operationId : String
  parameters : Option (List ParameterObject) := none
  requestBody : Option RequestBodyObject := none
  responses : Option (List (String × ResponseObject)) := none

/-- A path item: HTTP method name mapped to its operation. -/
abbrev PathItem : Type := List (String × OperationObject)

/-- The `OpenAPIV3_1.PathsObject` type: route string mapped to its path item. -/
abbrev PathsObject : Type := List (String × PathItem)

/-- The map `PROCEDURE_TYPE_HTTP_METHOD_MAP`: query to `get`,
mutation to `post`, subscription to `undefined`. -/
def PROCEDURE_TYPE_HTTP_METHOD_MAP : ProcedureType → Option String
  | ProcedureType.query => some ("get")
  | ProcedureType.mutation => some ("post")
  | ProcedureType.subscription => none

/-- Function `getPathsForProcedure`: generate the OpenAPI paths fragment for a single
procedure.  Mirrors the source: method lookup with early `{}` return for
subscriptions, then conditional input handling (`def.inputs[0]`), then output
handling with the `{result: {data}}` envelope, then the single-route result
the single-route result keyed by `basePath`, a slash, and the name. -/
def getPathsForProcedure (toJSONSchema : ZodType → Schema)
    (basePath procedureName : String) (procedure : ProcedureDef) :
    PathsObject :=
  match PROCEDURE_TYPE_HTTP_METHOD_MAP procedure.type with
  | none => []
  | some method =>
    let operation0 : OperationObject := { operationId := procedureName }
    let operation1 : OperationObject :=
      match procedure.inputs.head? with
      | none => operation0
      | some input0 =>
        let jsonSchema := toJSONSchema input0
        let content : List (String × MediaTypeObject) :=
          [("application/json", { schema := jsonSchema })]
        if method = "get" then
          { operation0 with
              parameters := some
                [{ name := "input", «in» := "query", content := content }] }
        else
          { operation0 with
              requestBody := some { required := true, content := content } }
    let operation : OperationObject :=
      match procedure.output with
      | some output =>
        let outputJsonSchema := toJSONSchema output
        let responseSchema : Schema :=
          Schema.obj ("object")
            [("result", Schema.obj ("object")
              [("data", outputJsonSchema)] ["data"])]
            ["result"]
        { operation1 with
            responses := some
              [("200",
                { description := "Successful response",
                  content := some
                    [("application/json", { schema := responseSchema })] })] }
      | none =>
        { operation1 with
            responses := some
              [("200",
                { description := "Successful response", content := none })] }
    [(basePath ++ "/" ++ procedureName, [(method, operation)])]

/-- The loop body of `getPathsForRouterRecord`: iterate the entries of the record
in declaration order, merging with `Object.assign` the fragment of each entry
(the translation of a procedure, or the recursive walk of a nested record)
into the accumulator
`paths`. -/
def pathsForEntries (toJSONSchema : ZodType → Schema) (basePath : String) :
    RouterRec → PathsObject → PathsObject
  | [], paths => paths
  | (procedureName, RouterEntry.procedure p) :: rest, paths =>
    pathsForEntries toJSONSchema basePath rest
      (objAssign paths (getPathsForProcedure toJSONSchema basePath
        procedureName p))
  | (_, RouterEntry.record r) :: rest, paths =>
    pathsForEntries toJSONSchema basePath rest
      (objAssign paths (pathsForEntries toJSONSchema basePath r []))

/-- Function `getPathsForRouterRecord`: walk a router record starting from the empty
paths object. -/
def getPathsForRouterRecord (toJSONSchema : ZodType → Schema)
    (basePath : String) (routerRecord : RouterRec) : PathsObject :=
  pathsForEntries toJSONSchema basePath routerRecord []

/-- The `info` section of the document. -/
structure Info where
  title : String
  version : String

/-- The OpenAPI 3.1 document the program returns; it populates exactly these
top-level keys and no others. -/
structure OpenApiDocument where
  openapi : String
  info : Info
  paths : PathsObject
  components : List (String × Schema)

/-- Function `trpc2OpenApi`: the entry point.  Builds the document envelope around the
walked paths; `components` is always the empty object. -/
def trpc2OpenApi (toJSONSchema : ZodType → Schema)
    (apiTitle apiVersion basePath : String) (tree : RouterRec) :
    OpenApiDocument :=
  { openapi := "3.1.0",
    info := { title := apiTitle, version := apiVersion },
    paths := getPathsForRouterRecord toJSONSchema basePath tree,
    components := [] }

/-- The leaf procedures of a router record, with their own names, in
depth-first declaration order (the order the walker visits them). -/
def leaves : RouterRec → List (String × ProcedureDef)
  | [] => []
  | (name, RouterEntry.procedure p) :: rest => (name, p) :: leaves rest
  | (_, RouterEntry.record r) :: rest => leaves r ++ leaves rest

/-- The leaf fragments of one entry, used to reason about `leaves` under
permutations. -/
def entryLeaves : String × RouterEntry → List (String × ProcedureDef)
  | (name, RouterEntry.procedure p) => [(name, p)]
  | (_, RouterEntry.record r) => leaves r

/-- The stream of route fragments the walker merges, in the order it merges
them: one translator result per leaf procedure, concatenated. -/
def contribs (toJSONSchema : ZodType → Schema) (basePath : String)
    (es : RouterRec) : PathsObject :=
  (leaves es).flatMap
    (fun q => getPathsForProcedure toJSONSchema basePath q.1 q.2)

/-- The flat router record holding exactly the leaf procedures of `es` under
their own names, with all nesting removed. -/
def flattenTree (es : RouterRec) : RouterRec :=
  (leaves es).map (fun q => (q.1, RouterEntry.procedure q.2))

/-! ## Association-list lemmas for the JavaScript object model -/

theorem getKey_nil {α : Type} (k : String) :
    getKey ([] : List (String × α)) k = none := rfl

theorem getKey_cons {α : Type} (p : String × α) (m : List (String × α))
    (k : String) :
    getKey (p :: m) k = if p.1 = k then some p.2 else getKey m k := by
  by_cases h : p.1 = k
  · simp [getKey, List.find?_cons, h]
  · simp [getKey, List.find?_cons, h]

theorem any_key_iff_mem {α : Type} {m : List (String × α)} {k : String} :
    m.any (fun p => p.1 == k) = true ↔ k ∈ m.map Prod.fst := by
  simp [List.any_eq_true, List.mem_map, beq_iff_eq]

theorem map_rep_eq_self {α : Type} {m : List (String × α)} {k : String}
    (v : α) (h : k ∉ m.map Prod.fst) :
    m.map (fun q => if q.1 == k then (k, v) else q) = m := by
  have hc : ∀ q ∈ m, (fun q => if q.1 == k then (k, v) else q) q = id q := by
    intro q hq
    have hne : q.1 ≠ k := fun he => h (List.mem_map.mpr ⟨q, hq, he⟩)
    simp [hne]
  rw [List.map_congr_left hc, List.map_id]

theorem getKey_map_rep {α : Type} (m : List (String × α)) (k r : String)
    (v : α) :
    getKey (m.map (fun q => if q.1 == k then (k, v) else q)) r =
      if r = k then (getKey m k).map (fun _ => v) else getKey m r := by
  induction m with
  | nil => by_cases h : r = k <;> simp [getKey, h]
  | cons p m ih =>
    rw [List.map_cons]
    by_cases hpk' : p.1 = k
    · have hpk : (p.1 == k) = true := beq_iff_eq.mpr hpk'
      rw [if_pos hpk, getKey_cons, getKey_cons, getKey_cons, ih, hpk']
      by_cases hrk : r = k
      · subst hrk
        rw [if_pos rfl, if_pos rfl, if_pos rfl]
        rfl
      · simp [hrk, Ne.symm hrk]
    · have hpk : ¬((p.1 == k) = true) := by
        intro h
        exact hpk' (beq_iff_eq.mp h)
      rw [if_neg hpk, getKey_cons, getKey_cons, getKey_cons, ih,
        if_neg hpk']
      by_cases hpr : p.1 = r
      · have hrk : r ≠ k := fun h => hpk' (hpr.trans h)
        rw [if_pos hpr, if_neg hrk, if_pos hpr]
      · rw [if_neg hpr, if_neg hpr]

theorem getKey_append_single {α : Type} (m : List (String × α))
    (k r : String) (v : α) :
    getKey (m ++ [(k, v)]) r =
      (getKey m r).or (if r = k then some v else none) := by
  unfold getKey
  rw [List.find?_append]
  cases hf : m.find? (fun p => p.1 == r) with
  | some q => simp [hf]
  | none =>
    by_cases hkr : k = r
    · simp [hf, List.find?_cons, hkr]
    · simp [hf, List.find?_cons, hkr, Ne.symm hkr]

theorem getKey_setKey {α : Type} (m : List (String × α)) (k r : String)
    (v : α) :
    getKey (setKey m k v) r = if r = k then some v else getKey m r := by
  unfold setKey
  by_cases hc : m.any (fun p => p.1 == k) = true
  · rw [if_pos hc, getKey_map_rep]
    by_cases hrk : r = k
    · subst hrk
      rw [if_pos rfl, if_pos rfl]
      have hs : (m.find? (fun p => p.1 == r)).isSome := by
        rw [List.find?_isSome]
        rw [List.any_eq_true] at hc
        exact hc
      obtain ⟨q, hq⟩ := Option.isSome_iff_exists.mp hs
      simp [getKey, hq]
    · rw [if_neg hrk, if_neg hrk]
  · rw [if_neg hc, getKey_append_single]
    by_cases hrk : r = k
    · subst hrk
      have hn : getKey m r = none := by
        unfold getKey
        have : m.find? (fun p => p.1 == r) = none := by
          rw [List.find?_eq_none]
          intro p hp hpr
          exact hc (List.any_eq_true.mpr ⟨p, hp, hpr⟩)
        rw [this]
        rfl
      rw [hn]
      simp
    · rw [if_neg hrk, if_neg hrk, Option.or_none]

theorem objAssign_nil {α : Type} (m : List (String × α)) :
    objAssign m [] = m := rfl

theorem objAssign_cons {α : Type} (m : List (String × α)) (u : String × α)
    (us : List (String × α)) :
    objAssign m (u :: us) = objAssign (setKey m u.1 u.2) us := rfl

theorem objAssign_append {α : Type} (m us vs : List (String × α)) :
    objAssign m (us ++ vs) = objAssign (objAssign m us) vs := by
  unfold objAssign
  exact List.foldl_append _ _ _ _

theorem getKey_objAssign {α : Type} (us : List (String × α)) :
    ∀ (m : List (String × α)) (r : String),
      getKey (objAssign m us) r =
        ((us.reverse.find? (fun q => q.1 == r)).map (fun q => q.2)).or
          (getKey m r) := by
  induction us with
  | nil => intro m r; simp [objAssign]
  | cons u us ih =>
    intro m r
    rw [objAssign_cons, ih, getKey_setKey, List.reverse_cons,
      List.find?_append]
    cases hf : us.reverse.find? (fun q => q.1 == r) with
    | some q => simp [hf]
    | none =>
      by_cases hur : u.1 = r
      · subst hur
        simp [hf, List.find?_cons]
      · simp [hf, List.find?_cons, hur, Ne.symm hur]

/-! ## Objects that agree everywhere except possibly at one key

`EqEx k m₁ m₂` relates two objects with identical key sequences whose entries
agree except possibly at key `k`.  It is the invariant that lets us replace
an intermediate value written at `k` when a later write to `k` lands on top,
which is the heart of the `Object.assign` composition law below. -/

/-- Same keys in the same positions; entries equal except possibly at `k`. -/
def EqEx {α : Type} (k : String) (m₁ m₂ : List (String × α)) : Prop :=
  List.Forall₂ (fun p q => p.1 = q.1 ∧ (p.1 ≠ k → p = q)) m₁ m₂

theorem eqEx_refl {α : Type} (k : String) (m : List (String × α)) :
    EqEx k m m :=
  List.forall₂_same.mpr (fun _ _ => ⟨rfl, fun _ => rfl⟩)

theorem eqEx_any {α : Type} {k : String} {m₁ m₂ : List (String × α)}
    (j : String) (h : EqEx k m₁ m₂) :
    m₁.any (fun p => p.1 == j) = m₂.any (fun p => p.1 == j) := by
  induction h with
  | nil => rfl
  | @cons p q l₁ l₂ hpq htail ih =>
    rw [List.any_cons, List.any_cons, ih, hpq.1]

theorem eqEx_map_rep {α : Type} {k : String} {m₁ m₂ : List (String × α)}
    (j : String) (w : α) (h : EqEx k m₁ m₂) :
    EqEx k (m₁.map (fun q => if q.1 == j then (j, w) else q))
      (m₂.map (fun q => if q.1 == j then (j, w) else q)) := by
  induction h with
  | nil => exact List.Forall₂.nil
  | @cons p q l₁ l₂ hpq htail ih =>
    rw [List.map_cons, List.map_cons]
    refine List.Forall₂.cons ?_ ih
    rcases hpq with ⟨hfst, hval⟩
    by_cases hpj : p.1 = j
    · rw [if_pos (beq_iff_eq.mpr hpj),
        if_pos (beq_iff_eq.mpr (hfst.symm.trans hpj))]
      exact ⟨rfl, fun _ => rfl⟩
    · rw [if_neg (fun hh => hpj (beq_iff_eq.mp hh)),
        if_neg (fun hh => hpj (hfst.trans (beq_iff_eq.mp hh)))]
      exact ⟨hfst, hval⟩

theorem eqEx_setKey {α : Type} {k : String} {m₁ m₂ : List (String × α)}
    (j : String) (w : α) (h : EqEx k m₁ m₂) :
    EqEx k (setKey m₁ j w) (setKey m₂ j w) := by
  unfold setKey
  rw [← eqEx_any j h]
  by_cases hc : m₁.any (fun p => p.1 == j) = true
  · rw [if_pos hc, if_pos hc]
    exact eqEx_map_rep j w h
  · rw [if_neg hc, if_neg hc]
    exact List.rel_append h
      (List.Forall₂.cons ⟨rfl, fun _ => rfl⟩ List.Forall₂.nil)

theorem eqEx_objAssign {α : Type} (us : List (String × α)) :
    ∀ {k : String} {m₁ m₂ : List (String × α)}, EqEx k m₁ m₂ →
      EqEx k (objAssign m₁ us) (objAssign m₂ us) := by
  induction us with
  | nil => intro k m₁ m₂ h; exact h
  | cons u us ih =>
    intro k m₁ m₂ h
    rw [objAssign_cons, objAssign_cons]
    exact ih (eqEx_setKey u.1 u.2 h)

theorem eqEx_map_rep_same {α : Type} (k : String) (m : List (String × α))
    (a b : α) :
    EqEx k (m.map (fun q => if q.1 == k then (k, a) else q))
      (m.map (fun q => if q.1 == k then (k, b) else q)) := by
  induction m with
  | nil => exact List.Forall₂.nil
  | cons p m ih =>
    rw [List.map_cons, List.map_cons]
    refine List.Forall₂.cons ?_ ih
    by_cases hpk : p.1 = k
    · rw [if_pos (beq_iff_eq.mpr hpk), if_pos (beq_iff_eq.mpr hpk)]
      exact ⟨rfl, fun hne => absurd rfl hne⟩
    · rw [if_neg (fun hh => hpk (beq_iff_eq.mp hh)),
        if_neg (fun hh => hpk (beq_iff_eq.mp hh))]
      exact ⟨rfl, fun _ => rfl⟩

theorem eqEx_setKey_same_key {α : Type} (k : String) (m : List (String × α))
    (a b : α) : EqEx k (setKey m k a) (setKey m k b) := by
  unfold setKey
  by_cases hc : m.any (fun p => p.1 == k) = true
  · rw [if_pos hc, if_pos hc]
    exact eqEx_map_rep_same k m a b
  · rw [if_neg hc, if_neg hc]
    exact List.rel_append (eqEx_refl k m)
      (List.Forall₂.cons ⟨rfl, fun hne => absurd rfl hne⟩ List.Forall₂.nil)

theorem eqEx_map_collapse {α : Type} {k : String} {m₁ m₂ : List (String × α)}
    (v : α) (h : EqEx k m₁ m₂) :
    m₁.map (fun q => if q.1 == k then (k, v) else q) =
      m₂.map (fun q => if q.1 == k then (k, v) else q) := by
  induction h with
  | nil => rfl
  | @cons p q l₁ l₂ hpq htail ih =>
    rw [List.map_cons, List.map_cons, ih]
    rcases hpq with ⟨hfst, hval⟩
    by_cases hpk : p.1 = k
    · rw [if_pos (beq_iff_eq.mpr hpk),
        if_pos (beq_iff_eq.mpr (hfst.symm.trans hpk))]
    · rw [if_neg (fun hh => hpk (beq_iff_eq.mp hh)),
        if_neg (fun hh => hpk (hfst.trans (beq_iff_eq.mp hh))),
        hval hpk]

theorem eqEx_eq_of_no_key {α : Type} {k : String} {m₁ m₂ : List (String × α)}
    (h : EqEx k m₁ m₂) : (∀ p ∈ m₁, p.1 ≠ k) → m₁ = m₂ := by
  induction h with
  | nil => intro _; rfl
  | @cons p q l₁ l₂ hpq htail ih =>
    intro hn
    rw [hpq.2 (hn p (List.mem_cons_self p l₁)),
      ih (fun x hx => hn x (List.mem_cons_of_mem p hx))]

theorem eqEx_setKey_collapse {α : Type} {k : String}
    {m₁ m₂ : List (String × α)} (v : α) (h : EqEx k m₁ m₂) :
    setKey m₁ k v = setKey m₂ k v := by
  unfold setKey
  rw [← eqEx_any k h]
  by_cases hc : m₁.any (fun p => p.1 == k) = true
  · rw [if_pos hc, if_pos hc]
    exact eqEx_map_collapse v h
  · rw [if_neg hc, if_neg hc]
    have hn : ∀ p ∈ m₁, p.1 ≠ k := by
      intro p hp hpk
      exact hc (List.any_eq_true.mpr ⟨p, hp, beq_iff_eq.mpr hpk⟩)
    rw [eqEx_eq_of_no_key h hn]

/-! ## Writes at a key already holding the written value are no-ops -/

theorem valAt_setKey_self {α : Type} (m : List (String × α)) (k : String)
    (v : α) : ∀ q ∈ setKey m k v, q.1 = k → q.2 = v := by
  intro q hq hqk
  unfold setKey at hq
  by_cases hc : m.any (fun p => p.1 == k) = true
  · rw [if_pos hc] at hq
    obtain ⟨p, hp, hrep⟩ := List.mem_map.mp hq
    by_cases hpk : p.1 = k
    · rw [if_pos (beq_iff_eq.mpr hpk)] at hrep
      rw [← hrep]
    · rw [if_neg (fun hh => hpk (beq_iff_eq.mp hh))] at hrep
      rw [← hrep] at hqk
      exact absurd hqk hpk
  · rw [if_neg hc] at hq
    rcases List.mem_append.mp hq with hq | hq
    · exfalso
      apply hc
      rw [List.any_eq_true]
      exact ⟨q, hq, beq_iff_eq.mpr hqk⟩
    · rw [List.mem_singleton] at hq
      rw [hq]

theorem valAt_setKey_other {α : Type} {m : List (String × α)} {k : String}
    {v : α} (j : String) (w : α) (hjk : j ≠ k)
    (h : ∀ q ∈ m, q.1 = k → q.2 = v) :
    ∀ q ∈ setKey m j w, q.1 = k → q.2 = v := by
  intro q hq hqk
  unfold setKey at hq
  by_cases hc : m.any (fun p => p.1 == j) = true
  · rw [if_pos hc] at hq
    obtain ⟨p, hp, hrep⟩ := List.mem_map.mp hq
    by_cases hpj : p.1 = j
    · rw [if_pos (beq_iff_eq.mpr hpj)] at hrep
      rw [← hrep] at hqk
      exact absurd hqk hjk
    · rw [if_neg (fun hh => hpj (beq_iff_eq.mp hh))] at hrep
      rw [← hrep] at hqk ⊢
      exact h p hp hqk
  · rw [if_neg hc] at hq
    rcases List.mem_append.mp hq with hq | hq
    · exact h q hq hqk
    · rw [List.mem_singleton] at hq
      rw [hq] at hqk
      exact absurd hqk hjk

theorem valAt_objAssign {α : Type} (us : List (String × α)) :
    ∀ {m : List (String × α)} {k : String} {v : α},
      k ∉ us.map Prod.fst → (∀ q ∈ m, q.1 = k → q.2 = v) →
      ∀ q ∈ objAssign m us, q.1 = k → q.2 = v := by
  induction us with
  | nil => intro m k v _ h; exact h
  | cons u us ih =>
    intro m k v hk h
    rw [objAssign_cons]
    have hu : u.1 ≠ k := by
      intro he
      apply hk
      rw [List.map_cons, ← he]
      exact List.mem_cons_self _ _
    have hk' : k ∉ us.map Prod.fst := by
      intro hmem
      apply hk
      rw [List.map_cons]
      exact List.mem_cons_of_mem _ hmem
    exact ih hk' (valAt_setKey_other u.1 u.2 hu h)

theorem keys_setKey_self_mem {α : Type} (m : List (String × α)) (k : String)
    (v : α) : k ∈ (setKey m k v).map Prod.fst := by
  unfold setKey
  by_cases hc : m.any (fun p => p.1 == k) = true
  · rw [if_pos hc]
    rw [List.any_eq_true] at hc
    obtain ⟨p, hp, hpk⟩ := hc
    exact List.mem_map.mpr
      ⟨(k, v), List.mem_map.mpr ⟨p, hp, by rw [if_pos hpk]⟩, rfl⟩
  · rw [if_neg hc, List.map_append]
    exact List.mem_append.mpr (Or.inr (by simp))

theorem keys_setKey_mono {α : Type} {m : List (String × α)} {j : String}
    (hj : j ∈ m.map Prod.fst) (k : String) (v : α) :
    j ∈ (setKey m k v).map Prod.fst := by
  unfold setKey
  obtain ⟨p, hp, hpj⟩ := List.mem_map.mp hj
  by_cases hc : m.any (fun p => p.1 == k) = true
  · rw [if_pos hc]
    by_cases hpk : p.1 = k
    · refine List.mem_map.mpr
        ⟨(k, v), List.mem_map.mpr
          ⟨p, hp, by rw [if_pos (beq_iff_eq.mpr hpk)]⟩, hpk ▸ hpj⟩
    · exact List.mem_map.mpr
        ⟨p, List.mem_map.mpr
          ⟨p, hp, by rw [if_neg (fun hh => hpk (beq_iff_eq.mp hh))]⟩, hpj⟩
  · rw [if_neg hc, List.map_append]
    exact List.mem_append.mpr (Or.inl hj)

theorem keys_objAssign_mono {α : Type} (us : List (String × α)) :
    ∀ {m : List (String × α)} {j : String}, j ∈ m.map Prod.fst →
      j ∈ (objAssign m us).map Prod.fst := by
  induction us with
  | nil => intro m j h; exact h
  | cons u us ih =>
    intro m j h
    rw [objAssign_cons]
    exact ih (keys_setKey_mono h u.1 u.2)

theorem setKey_self_of_value {α : Type} {m : List (String × α)} {k : String}
    {v : α} (hmem : k ∈ m.map Prod.fst)
    (hval : ∀ q ∈ m, q.1 = k → q.2 = v) : setKey m k v = m := by
  unfold setKey
  rw [if_pos (any_key_iff_mem.mpr hmem)]
  have hc : ∀ q ∈ m, (fun q => if q.1 == k then (k, v) else q) q = id q := by
    intro q hq
    show (if q.1 == k then (k, v) else q) = id q
    by_cases hqk : q.1 = k
    · rw [if_pos (beq_iff_eq.mpr hqk)]
      have hqe : q = (k, v) := Prod.ext hqk (hval q hq hqk)
      rw [hqe]
      rfl
    · rw [if_neg (fun hh => hqk (beq_iff_eq.mp hh))]
      rfl
  rw [List.map_congr_left hc, List.map_id]

/-! ## Key sequences stay duplicate-free under writes -/

theorem keys_setKey_of_mem {α : Type} {m : List (String × α)} {k : String}
    (v : α) (hc : m.any (fun p => p.1 == k) = true) :
    (setKey m k v).map Prod.fst = m.map Prod.fst := by
  unfold setKey
  rw [if_pos hc, List.map_map]
  apply List.map_congr_left
  intro p _
  show Prod.fst (if p.1 == k then (k, v) else p) = p.1
  by_cases hpk : p.1 = k
  · rw [if_pos (beq_iff_eq.mpr hpk), hpk]
  · rw [if_neg (fun hh => hpk (beq_iff_eq.mp hh))]

theorem nodup_keys_setKey {α : Type} {m : List (String × α)} (k : String)
    (v : α) (h : (m.map Prod.fst).Nodup) :
    ((setKey m k v).map Prod.fst).Nodup := by
  by_cases hc : m.any (fun p => p.1 == k) = true
  · rw [keys_setKey_of_mem v hc]
    exact h
  · unfold setKey
    rw [if_neg hc, List.map_append]
    refine List.Nodup.append h (List.nodup_singleton k) ?_
    intro a ha hb
    rw [List.map_singleton, List.mem_singleton] at hb
    subst hb
    exact hc (any_key_iff_mem.mpr ha)

theorem nodup_keys_objAssign {α : Type} (us : List (String × α)) :
    ∀ {m : List (String × α)}, (m.map Prod.fst).Nodup →
      ((objAssign m us).map Prod.fst).Nodup := by
  induction us with
  | nil => intro m h; exact h
  | cons u us ih =>
    intro m h
    rw [objAssign_cons]
    exact ih (nodup_keys_setKey u.1 u.2 h)

/-! ## The `Object.assign` composition law -/

theorem objAssign_setKey {α : Type} (m' : List (String × α)) :
    ∀ (m : List (String × α)) (k : String) (v : α),
      (m'.map Prod.fst).Nodup →
      objAssign m (setKey m' k v) = setKey (objAssign m m') k v := by
  induction m' with
  | nil => intro m k v _; rfl
  | cons p t ih =>
    intro m k v hnd
    rw [List.map_cons, List.nodup_cons] at hnd
    obtain ⟨hpt, hndt⟩ := hnd
    by_cases hpk : p.1 = k
    · have hkt : k ∉ t.map Prod.fst := by
        rw [← hpk]
        exact hpt
      have hany : (p :: t).any (fun q => q.1 == k) = true :=
        List.any_eq_true.mpr ⟨p, List.mem_cons_self _ _, beq_iff_eq.mpr hpk⟩
      have hset : setKey (p :: t) k v = (k, v) :: t := by
        unfold setKey
        rw [if_pos hany, List.map_cons, if_pos (beq_iff_eq.mpr hpk),
          map_rep_eq_self v hkt]
      rw [hset,
        show objAssign m ((k, v) :: t) = objAssign (setKey m k v) t from rfl,
        show objAssign m (p :: t) = objAssign (setKey m p.1 p.2) t from rfl,
        hpk,
        eqEx_setKey_collapse v
          (eqEx_objAssign t (eqEx_setKey_same_key k m p.2 v)),
        setKey_self_of_value
          (keys_objAssign_mono t (keys_setKey_self_mem m k v))
          (valAt_objAssign t hkt (valAt_setKey_self m k v))]
    · have hpk' : ¬((p.1 == k) = true) := fun hh => hpk (beq_iff_eq.mp hh)
      by_cases hct : t.any (fun q => q.1 == k) = true
      · have hany : (p :: t).any (fun q => q.1 == k) = true := by
          rw [List.any_cons, hct, Bool.or_true]
        have hset : setKey (p :: t) k v = p :: setKey t k v := by
          unfold setKey
          rw [if_pos hany, if_pos hct, List.map_cons, if_neg hpk']
        rw [hset,
          show objAssign m (p :: setKey t k v) =
            objAssign (setKey m p.1 p.2) (setKey t k v) from rfl,
          ih (setKey m p.1 p.2) k v hndt,
          show objAssign m (p :: t) = objAssign (setKey m p.1 p.2) t from rfl]
      · have hany : ¬((p :: t).any (fun q => q.1 == k) = true) := by
          rw [List.any_cons]
          intro hh
          rcases Bool.or_eq_true_iff.mp hh with hh | hh
          · exact hpk' hh
          · exact hct hh
        have hset : setKey (p :: t) k v = p :: (t ++ [(k, v)]) := by
          unfold setKey
          rw [if_neg hany]
          rfl
        rw [hset,
          show objAssign m (p :: (t ++ [(k, v)])) =
            objAssign (setKey m p.1 p.2) (t ++ [(k, v)]) from rfl,
          objAssign_append,
          show objAssign (objAssign (setKey m p.1 p.2) t) [(k, v)] =
            setKey (objAssign (setKey m p.1 p.2) t) k v from rfl,
          show objAssign m (p :: t) =
            objAssign (setKey m p.1 p.2) t from rfl]

theorem objAssign_objAssign_nil {α : Type} (us : List (String × α)) :
    ∀ (m : List (String × α)),
      objAssign m (objAssign [] us) = objAssign m us := by
  induction us using List.reverseRecOn with
  | nil => intro m; rfl
  | append_singleton us u ih =>
    intro m
    rw [objAssign_append, objAssign_append,
      show objAssign (objAssign ([] : List (String × α)) us) [u] =
        setKey (objAssign [] us) u.1 u.2 from rfl,
      show objAssign (objAssign m us) [u] =
        setKey (objAssign m us) u.1 u.2 from rfl,
      objAssign_setKey (objAssign [] us) m u.1 u.2
        (nodup_keys_objAssign us (by simp)),
      ih]

/-! ## The walk equals one `Object.assign` of the leaf fragment stream -/

/-- The single-procedure operation object the translator builds, split out of
`getPathsForProcedure` so the path fragment can be named. -/
def procOperation (toJSONSchema : ZodType → Schema)
    (procedureName method : String) (procedure : ProcedureDef) :
    OperationObject :=
  let operation0 : OperationObject := { operationId := procedureName }
  let operation1 : OperationObject :=
    match procedure.inputs.head? with
    | none => operation0
    | some input0 =>
      let jsonSchema := toJSONSchema input0
      let content : List (String × MediaTypeObject) :=
        [("application/json", { schema := jsonSchema })]
      if method = "get" then
        { operation0 with
            parameters := some
              [{ name := "input", «in» := "query", content := content }] }
      else
        { operation0 with
            requestBody := some { required := true, content := content } }
  match procedure.output with
  | some output =>
    let outputJsonSchema := toJSONSchema output
    let responseSchema : Schema :=
      Schema.obj ("object")
        [("result", Schema.obj ("object")
          [("data", outputJsonSchema)] ["data"])]
        ["result"]
    { operation1 with
        responses := some
          [("200",
            { description := "Successful response",
              content := some
                [("application/json", { schema := responseSchema })] })] }
  | none =>
    { operation1 with
        responses := some
          [("200",
            { description := "Successful response", content := none })] }

theorem getPathsForProcedure_eq_of_method (toJSONSchema : ZodType → Schema)
    (b n : String) (p : ProcedureDef) (m : String)
    (hm : PROCEDURE_TYPE_HTTP_METHOD_MAP p.type = some m) :
    getPathsForProcedure toJSONSchema b n p =
      [(b ++ "/" ++ n, [(m, procOperation toJSONSchema n m p)])] := by
  unfold getPathsForProcedure procOperation
  rw [hm]

theorem getPathsForProcedure_eq_nil_of_stream (toJSONSchema : ZodType → Schema)
    (b n : String) (p : ProcedureDef)
    (hm : PROCEDURE_TYPE_HTTP_METHOD_MAP p.type = none) :
    getPathsForProcedure toJSONSchema b n p = [] := by
  unfold getPathsForProcedure
  rw [hm]

theorem getPathsForProcedure_shape (toJSONSchema : ZodType → Schema)
    (b n : String) (p : ProcedureDef) :
    getPathsForProcedure toJSONSchema b n p = [] ∨
    ∃ (m : String) (op : OperationObject),
      PROCEDURE_TYPE_HTTP_METHOD_MAP p.type = some m ∧
      getPathsForProcedure toJSONSchema b n p =
        [(b ++ "/" ++ n, [(m, op)])] := by
  cases hm : PROCEDURE_TYPE_HTTP_METHOD_MAP p.type with
  | none => exact Or.inl (getPathsForProcedure_eq_nil_of_stream _ _ _ _ hm)
  | some m =>
    exact Or.inr ⟨m, procOperation toJSONSchema n m p, rfl,
      getPathsForProcedure_eq_of_method _ _ _ _ _ hm⟩

theorem leaves_cons (q : String × RouterEntry) (rest : RouterRec) :
    leaves (q :: rest) = entryLeaves q ++ leaves rest := by
  rcases q with ⟨n, e⟩
  cases e with
  | procedure p => simp [leaves, entryLeaves]
  | record r => simp [leaves, entryLeaves]

theorem contribs_nil (toJSONSchema : ZodType → Schema) (b : String) :
    contribs toJSONSchema b [] = [] := by
  simp [contribs, leaves]

theorem contribs_cons_procedure (toJSONSchema : ZodType → Schema)
    (b n : String) (p : ProcedureDef) (rest : RouterRec) :
    contribs toJSONSchema b ((n, RouterEntry.procedure p) :: rest) =
      getPathsForProcedure toJSONSchema b n p ++
        contribs toJSONSchema b rest := by
  simp [contribs, leaves, List.flatMap_cons]

theorem contribs_cons_record (toJSONSchema : ZodType → Schema)
    (b nm : String) (r rest : RouterRec) :
    contribs toJSONSchema b ((nm, RouterEntry.record r) :: rest) =
      contribs toJSONSchema b r ++ contribs toJSONSchema b rest := by
  simp [contribs, leaves, List.flatMap_append]

theorem pathsForEntries_eq_objAssign_contribs (toJSONSchema : ZodType → Schema)
    (b : String) : ∀ (es : RouterRec) (acc : PathsObject),
      pathsForEntries toJSONSchema b es acc =
        objAssign acc (contribs toJSONSchema b es) := by
  apply pathsForEntries.induct toJSONSchema b
    (motive := fun es acc => pathsForEntries toJSONSchema b es acc =
      objAssign acc (contribs toJSONSchema b es))
  · intro paths
    rw [contribs_nil, objAssign_nil]
    simp [pathsForEntries]
  · intro n p rest paths ih
    rw [contribs_cons_procedure]
    simp only [pathsForEntries]
    rw [ih, objAssign_append]
  · intro nm r rest paths ih₁ ih₂
    rw [contribs_cons_record]
    simp only [pathsForEntries]
    rw [ih₂, ih₁, objAssign_objAssign_nil, objAssign_append]

theorem getPathsForRouterRecord_eq_contribs (toJSONSchema : ZodType → Schema)
    (b : String) (es : RouterRec) :
    getPathsForRouterRecord toJSONSchema b es =
      objAssign [] (contribs toJSONSchema b es) := by
  unfold getPathsForRouterRecord
  exact pathsForEntries_eq_objAssign_contribs toJSONSchema b es []

theorem getKey_getPathsForRouterRecord (toJSONSchema : ZodType → Schema)
    (b : String) (es : RouterRec) (r : String) :
    getKey (getPathsForRouterRecord toJSONSchema b es) r =
      ((contribs toJSONSchema b es).reverse.find?
        (fun q => q.1 == r)).map (fun q => q.2) := by
  rw [getPathsForRouterRecord_eq_contribs, getKey_objAssign, getKey_nil,
    Option.or_none]

/-! ## Flattening and permutations of the tree -/

theorem leaves_map_procedure (l : List (String × ProcedureDef)) :
    leaves (l.map (fun q => (q.1, RouterEntry.procedure q.2))) = l := by
  induction l with
  | nil => simp [leaves]
  | cons q l ih => simp [leaves, ih]

theorem leaves_flattenTree (es : RouterRec) :
    leaves (flattenTree es) = leaves es := by
  unfold flattenTree
  exact leaves_map_procedure (leaves es)

theorem leaves_perm {es₁ es₂ : RouterRec} (h : es₁.Perm es₂) :
    (leaves es₁).Perm (leaves es₂) := by
  induction h with
  | nil => exact List.Perm.refl _
  | cons x h ih =>
    rw [leaves_cons, leaves_cons]
    exact List.Perm.append_left _ ih
  | swap x y l =>
    rw [leaves_cons, leaves_cons, leaves_cons, leaves_cons,
      ← List.append_assoc, ← List.append_assoc]
    exact List.Perm.append_right _ List.perm_append_comm
  | trans h₁ h₂ ih₁ ih₂ => exact ih₁.trans ih₂

theorem contribs_perm (toJSONSchema : ZodType → Schema) (b : String)
    {es₁ es₂ : RouterRec} (h : es₁.Perm es₂) :
    (contribs toJSONSchema b es₁).Perm (contribs toJSONSchema b es₂) :=
  List.Perm.flatMap_right _ (leaves_perm h)

/-! ## Lookup with `find?` over a key-unique list is permutation-invariant -/

theorem unique_key_of_nodup {α : Type} {l : List (String × α)}
    (h : (l.map Prod.fst).Nodup) {r : String} :
    ∀ a ∈ l, ∀ b ∈ l, a.1 = r → b.1 = r → a = b := by
  induction l with
  | nil =>
    intro a ha
    exact absurd ha (List.not_mem_nil a)
  | cons c t ih =>
    rw [List.map_cons, List.nodup_cons] at h
    obtain ⟨hc, ht⟩ := h
    intro a ha b hb har hbr
    rcases List.mem_cons.mp ha with ha' | ha'
    · rcases List.mem_cons.mp hb with hb' | hb'
      · rw [ha', hb']
      · exfalso
        apply hc
        rw [ha'] at har
        exact List.mem_map.mpr ⟨b, hb', hbr.trans har.symm⟩
    · rcases List.mem_cons.mp hb with hb' | hb'
      · exfalso
        apply hc
        rw [hb'] at hbr
        exact List.mem_map.mpr ⟨a, ha', har.trans hbr.symm⟩
      · exact ih ht a ha' b hb' har hbr

theorem find?_key_eq_of_perm {α : Type} {l₁ l₂ : List (String × α)}
    (hp : l₁.Perm l₂) (hnd : (l₁.map Prod.fst).Nodup) (r : String) :
    l₁.find? (fun q => q.1 == r) = l₂.find? (fun q => q.1 == r) := by
  have hnd₂ : (l₂.map Prod.fst).Nodup := ((hp.map Prod.fst).nodup_iff).mp hnd
  cases h₁ : l₁.find? (fun q => q.1 == r) with
  | none =>
    symm
    rw [List.find?_eq_none] at h₁ ⊢
    intro x hx
    exact h₁ x (hp.symm.subset hx)
  | some a =>
    have ha : a ∈ l₁ := List.mem_of_find?_eq_some h₁
    have hpa : a.1 = r := by
      have h' := List.find?_some h₁
      simp only [beq_iff_eq] at h'
      exact h'
    have ha₂ : a ∈ l₂ := hp.subset ha
    have hsome : (l₂.find? (fun q => q.1 == r)).isSome := by
      rw [List.find?_isSome]
      exact ⟨a, ha₂, beq_iff_eq.mpr hpa⟩
    obtain ⟨b, hb⟩ := Option.isSome_iff_exists.mp hsome
    have hbmem : b ∈ l₂ := List.mem_of_find?_eq_some hb
    have hpb : b.1 = r := by
      have h' := List.find?_some hb
      simp only [beq_iff_eq] at h'
      exact h'
    rw [hb, unique_key_of_nodup hnd₂ a ha₂ b hbmem hpa hpb]

/-! ## Where a present route in the walked paths comes from -/

theorem getKey_walk_origin (toJSONSchema : ZodType → Schema) (b : String)
    (es : RouterRec) (r : String) (item : PathItem)
    (h : getKey (getPathsForRouterRecord toJSONSchema b es) r = some item) :
    ∃ (n : String) (p : ProcedureDef) (m : String) (op : OperationObject),
      (n, p) ∈ leaves es ∧
      PROCEDURE_TYPE_HTTP_METHOD_MAP p.type = some m ∧
      r = b ++ "/" ++ n ∧ item = [(m, op)] := by
  rw [getKey_getPathsForRouterRecord] at h
  cases hf : (contribs toJSONSchema b es).reverse.find?
      (fun q => q.1 == r) with
  | none =>
    rw [hf] at h
    exact absurd h (by simp)
  | some q =>
    rw [hf] at h
    have hitem : q.2 = item := Option.some.inj h
    have hq : q ∈ (contribs toJSONSchema b es).reverse :=
      List.mem_of_find?_eq_some hf
    rw [List.mem_reverse] at hq
    have hqr : q.1 = r := by
      have h' := List.find?_some hf
      simp only [beq_iff_eq] at h'
      exact h'
    rw [contribs, List.mem_flatMap] at hq
    obtain ⟨a, ha, hqa⟩ := hq
    rcases getPathsForProcedure_shape toJSONSchema b a.1 a.2 with hsh |
      ⟨m, op, hm, hsh⟩
    · rw [hsh] at hqa
      exact absurd hqa (List.not_mem_nil q)
    · rw [hsh, List.mem_singleton] at hqa
      refine ⟨a.1, a.2, m, op, ?_, hm, ?_, ?_⟩
      · rw [Prod.mk.eta]
        exact ha
      · rw [← hqr, hqa]
      · rw [← hitem, hqa]

/-! ## Witness fixtures -/

/-- Fixture conversion service for witnesses: tags the id of each Zod type. -/
def convW : ZodType → Schema := fun t => Schema.raw t.id

/-- Fixture: query procedure with declared input and output. -/
def qProcW : ProcedureDef :=
  { type := ProcedureType.query, inputs := [ZodType.mk 1],
    output := some (ZodType.mk 2) }

/-- Fixture: mutation procedure with declared input, no output. -/
def mProcW : ProcedureDef :=
  { type := ProcedureType.mutation, inputs := [ZodType.mk 3], output := none }

/-- Fixture: subscription procedure. -/
def sProcW : ProcedureDef :=
  { type := ProcedureType.subscription, inputs := [], output := none }

/-- Fixture: query procedure with no input and no output. -/
def hProcW : ProcedureDef :=
  { type := ProcedureType.query, inputs := [], output := none }

/-- Fixture: mutation procedure with two declared inputs. -/
def p2W : ProcedureDef :=
  { type := ProcedureType.mutation, inputs := [ZodType.mk 7, ZodType.mk 8],
    output := none }

/-- Fixture: one-procedure router record. -/
def treeW : RouterRec := [("q", RouterEntry.procedure qProcW)]

/-- Fixture: two-procedure router record. -/
def pairTreeW : RouterRec :=
  [("q", RouterEntry.procedure qProcW), ("m", RouterEntry.procedure mProcW)]

/-- Fixture: `pairTreeW` with its two entries swapped. -/
def pairTreeW2 : RouterRec :=
  [("m", RouterEntry.procedure mProcW), ("q", RouterEntry.procedure qProcW)]

/-- Fixture: a nested record and a sibling procedure colliding on the same
full route string. -/
def treeColl : RouterRec :=
  [("sub", RouterEntry.record [("a", RouterEntry.procedure qProcW)]),
   ("a", RouterEntry.procedure mProcW)]

/-- The operation the translator produces for `qProcW` under name `q`. -/
def opQW : OperationObject :=
  { operationId := "q",
    parameters := some
      [{ name := "input", «in» := "query",
         content := [("application/json", { schema := Schema.raw 1 })] }],
    requestBody := none,
    responses := some
      [("200",
        { description := "Successful response",
          content := some
            [("application/json",
              { schema := Schema.obj ("object")
                  [("result", Schema.obj ("object")
                    [("data", Schema.raw 2)] ["data"])]
                  ["result"] })] })] }

/-- The operation the translator produces for `mProcW` under name `a`. -/
def opMW : OperationObject :=
  { operationId := "a",
    parameters := none,
    requestBody := some
      { required := true,
        content := [("application/json", { schema := Schema.raw 3 })] },
    responses := some
      [("200", { description := "Successful response", content := none })] }

/-! ## Claim theorems -/

/-- C1: for every read/write procedure (one whose type maps to an HTTP
method) the generated 200 response has description "Successful response";
with a declared output type its application/json schema is the fixed
two-level envelope `{type: object, required: [result], properties: {result:
{type: object, required: [data], properties: {data: <converted output>}}}}`,
and with no declared output the 200 response carries no content. -/
theorem claim_output_envelope (toJSONSchema : ZodType → Schema)
    (b n : String) (p : ProcedureDef) (m : String)
    (hm : PROCEDURE_TYPE_HTTP_METHOD_MAP p.type = some m) :
    ∃ op : OperationObject,
      getPathsForProcedure toJSONSchema b n p =
        [(b ++ "/" ++ n, [(m, op)])] ∧
      (∀ t, p.output = some t →
        op.responses = some
          [("200",
            { description := "Successful response",
              content := some
                [("application/json",
                  { schema := Schema.obj ("object")
                      [("result", Schema.obj ("object")
                        [("data", toJSONSchema t)] ["data"])]
                      ["result"] })] })]) ∧
      (p.output = none →
        op.responses = some
          [("200",
            { description := "Successful response", content := none })]) := by
  refine ⟨procOperation toJSONSchema n m p,
    getPathsForProcedure_eq_of_method _ _ _ _ _ hm, ?_, ?_⟩
  · intro t ht
    cases hin : p.inputs.head? <;> simp [procOperation, ht, hin]
  · intro ht
    cases hin : p.inputs.head? <;> simp [procOperation, ht, hin]

/-- Witness for C1 at a concrete query procedure with an output type. -/
theorem claim_output_envelope_witness :
    ∃ op : OperationObject,
      getPathsForProcedure convW ("/trpc") ("g") qProcW =
        [("/trpc" ++ "/" ++ "g", [(("get"), op)])] ∧
      (∀ t, qProcW.output = some t →
        op.responses = some
          [("200",
            { description := "Successful response",
              content := some
                [("application/json",
                  { schema := Schema.obj ("object")
                      [("result", Schema.obj ("object")
                        [("data", convW t)] ["data"])]
                      ["result"] })] })]) ∧
      (qProcW.output = none →
        op.responses = some
          [("200",
            { description := "Successful response", content := none })]) :=
  claim_output_envelope convW ("/trpc") ("g") qProcW ("get") rfl

/-- C2: a query procedure is emitted with exactly method `get`, a mutation
with exactly method `post`, a subscription yields an empty route fragment,
and every route present in the walked paths originates from some
non-subscription leaf procedure (so the route of a subscription never appears
on its own account). -/
theorem claim_method_mapping (toJSONSchema : ZodType → Schema) (b : String) :
    (∀ (n : String) (p : ProcedureDef), p.type = ProcedureType.query →
      ∃ op, getPathsForProcedure toJSONSchema b n p =
        [(b ++ "/" ++ n, [(("get"), op)])]) ∧
    (∀ (n : String) (p : ProcedureDef), p.type = ProcedureType.mutation →
      ∃ op, getPathsForProcedure toJSONSchema b n p =
        [(b ++ "/" ++ n, [(("post"), op)])]) ∧
    (∀ (n : String) (p : ProcedureDef), p.type = ProcedureType.subscription →
      getPathsForProcedure toJSONSchema b n p = []) ∧
    (∀ (es : RouterRec) (r : String) (item : PathItem),
      getKey (getPathsForRouterRecord toJSONSchema b es) r = some item →
      ∃ (n : String) (p : ProcedureDef), (n, p) ∈ leaves es ∧
        p.type ≠ ProcedureType.subscription ∧ r = b ++ "/" ++ n) := by
  refine ⟨?_, ?_, ?_, ?_⟩
  · intro n p hq
    exact ⟨procOperation toJSONSchema n ("get") p,
      getPathsForProcedure_eq_of_method _ _ _ _ _ (by rw [hq]; rfl)⟩
  · intro n p hmut
    exact ⟨procOperation toJSONSchema n ("post") p,
      getPathsForProcedure_eq_of_method _ _ _ _ _ (by rw [hmut]; rfl)⟩
  · intro n p hs
    exact getPathsForProcedure_eq_nil_of_stream _ _ _ _ (by rw [hs]; rfl)
  · intro es r item h
    obtain ⟨n, p, m, op, hmem, hm, hr, _⟩ := getKey_walk_origin _ _ _ _ _ h
    refine ⟨n, p, hmem, ?_, hr⟩
    intro hs
    rw [hs] at hm
    simp [PROCEDURE_TYPE_HTTP_METHOD_MAP] at hm

/-- Witness for C2 at concrete query, mutation and subscription procedures
and a one-route tree. -/
theorem claim_method_mapping_witness :
    (∃ op, getPathsForProcedure convW ("/trpc") ("q") qProcW =
      [("/trpc" ++ "/" ++ "q", [(("get"), op)])]) ∧
    (∃ op, getPathsForProcedure convW ("/trpc") ("m") mProcW =
      [("/trpc" ++ "/" ++ "m", [(("post"), op)])]) ∧
    (getPathsForProcedure convW ("/trpc") ("s") sProcW = []) ∧
    (∃ (n : String) (p : ProcedureDef), (n, p) ∈ leaves treeW ∧
      p.type ≠ ProcedureType.subscription ∧
      ("/trpc/q") = "/trpc" ++ "/" ++ n) :=
  ⟨(claim_method_mapping convW ("/trpc")).1 ("q") qProcW rfl,
   (claim_method_mapping convW ("/trpc")).2.1 ("m") mProcW rfl,
   (claim_method_mapping convW ("/trpc")).2.2.1 ("s") sProcW rfl,
   (claim_method_mapping convW ("/trpc")).2.2.2 treeW ("/trpc/q")
     [(("get"), opQW)]
     (by simp [getPathsForRouterRecord, pathsForEntries,
       getPathsForProcedure, treeW, qProcW, convW, opQW, objAssign, setKey,
       getKey, PROCEDURE_TYPE_HTTP_METHOD_MAP])⟩

/-- C3: with no declared input the operation has neither parameters nor
request body; a `get` operation with input has exactly one parameter named
"input" in location "query" wrapping the converted schema under
application/json; a `post` operation with input has a required request body
with the same wrapped schema. -/
theorem claim_input_handling (toJSONSchema : ZodType → Schema)
    (b n : String) (p : ProcedureDef) (m : String)
    (hm : PROCEDURE_TYPE_HTTP_METHOD_MAP p.type = some m) :
    ∃ op : OperationObject,
      getPathsForProcedure toJSONSchema b n p =
        [(b ++ "/" ++ n, [(m, op)])] ∧
      (p.inputs.head? = none →
        op.parameters = none ∧ op.requestBody = none) ∧
      (∀ t, p.inputs.head? = some t → m = "get" →
        op.parameters = some
          [{ name := "input", «in» := "query",
             content := [("application/json",
               { schema := toJSONSchema t })] }] ∧
        op.requestBody = none) ∧
      (∀ t, p.inputs.head? = some t → m = "post" →
        op.requestBody = some
          { required := true,
            content := [("application/json",
              { schema := toJSONSchema t })] } ∧
        op.parameters = none) := by
  refine ⟨procOperation toJSONSchema n m p,
    getPathsForProcedure_eq_of_method _ _ _ _ _ hm, ?_, ?_, ?_⟩
  · intro ht
    cases hout : p.output <;> simp [procOperation, ht, hout]
  · intro t ht hget
    subst hget
    cases hout : p.output <;> simp [procOperation, ht, hout]
  · intro t ht hpost
    subst hpost
    cases hout : p.output <;> simp [procOperation, ht, hout]

/-- Witness for C3 covering the no-input, get-with-input and post-with-input
cases at concrete procedures. -/
theorem claim_input_handling_witness :
    (∃ op : OperationObject,
      getPathsForProcedure convW ("/t") ("h") hProcW =
        [("/t" ++ "/" ++ "h", [(("get"), op)])] ∧
      (hProcW.inputs.head? = none →
        op.parameters = none ∧ op.requestBody = none) ∧
      (∀ t, hProcW.inputs.head? = some t → ("get") = "get" →
        op.parameters = some
          [{ name := "input", «in» := "query",
             content := [("application/json",
               { schema := convW t })] }] ∧
        op.requestBody = none) ∧
      (∀ t, hProcW.inputs.head? = some t → ("get") = "post" →
        op.requestBody = some
          { required := true,
            content := [("application/json",
              { schema := convW t })] } ∧
        op.parameters = none)) ∧
    (∃ op : OperationObject,
      getPathsForProcedure convW ("/t") ("q") qProcW =
        [("/t" ++ "/" ++ "q", [(("get"), op)])] ∧
      (qProcW.inputs.head? = none →
        op.parameters = none ∧ op.requestBody = none) ∧
      (∀ t, qProcW.inputs.head? = some t → ("get") = "get" →
        op.parameters = some
          [{ name := "input", «in» := "query",
             content := [("application/json",
               { schema := convW t })] }] ∧
        op.requestBody = none) ∧
      (∀ t, qProcW.inputs.head? = some t → ("get") = "post" →
        op.requestBody = some
          { required := true,
            content := [("application/json",
              { schema := convW t })] } ∧
        op.parameters = none)) ∧
    (∃ op : OperationObject,
      getPathsForProcedure convW ("/t") ("m") mProcW =
        [("/t" ++ "/" ++ "m", [(("post"), op)])] ∧
      (mProcW.inputs.head? = none →
        op.parameters = none ∧ op.requestBody = none) ∧
      (∀ t, mProcW.inputs.head? = some t → ("post") = "get" →
        op.parameters = some
          [{ name := "input", «in» := "query",
             content := [("application/json",
               { schema := convW t })] }] ∧
        op.requestBody = none) ∧
      (∀ t, mProcW.inputs.head? = some t → ("post") = "post" →
        op.requestBody = some
          { required := true,
            content := [("application/json",
              { schema := convW t })] } ∧
        op.parameters = none)) := by
  refine ⟨?_, ?_, ?_⟩
  · exact claim_input_handling convW ("/t") ("h") hProcW ("get") rfl
  · exact claim_input_handling convW ("/t") ("q") qProcW ("get") rfl
  · exact claim_input_handling convW ("/t") ("m") mProcW ("post") rfl

/-- C4: for every base path and name, a translated (non-stream) procedure is
keyed by the literal concatenation `basePath ++ "/" ++ name`, with no
separator normalization. -/
theorem claim_route_concatenation (toJSONSchema : ZodType → Schema)
    (b n : String) (p : ProcedureDef) (m : String)
    (hm : PROCEDURE_TYPE_HTTP_METHOD_MAP p.type = some m) :
    (getPathsForProcedure toJSONSchema b n p).map Prod.fst =
      [b ++ "/" ++ n] := by
  rw [getPathsForProcedure_eq_of_method _ _ _ _ _ hm]
  rfl

/-- Witness for C4: empty base path gives "/test", slash-less base path
gives "api/test". -/
theorem claim_route_concatenation_witness :
    (getPathsForProcedure convW ("") ("test") qProcW).map Prod.fst =
      ["/test"] ∧
    (getPathsForProcedure convW ("api") ("test") qProcW).map Prod.fst =
      ["api/test"] :=
  ⟨claim_route_concatenation convW ("") ("test") qProcW ("get") rfl,
   claim_route_concatenation convW ("api") ("test") qProcW ("get") rfl⟩

/-- C5: the walker descends into nested records with the unchanged base
path, so walking any tree produces exactly the RouteMap of the flat tree
holding just its leaf procedures under their own names: nesting depth does
not change the output. -/
theorem claim_nesting_collapse (toJSONSchema : ZodType → Schema)
    (b : String) (es : RouterRec) :
    getPathsForRouterRecord toJSONSchema b es =
      getPathsForRouterRecord toJSONSchema b (flattenTree es) := by
  rw [getPathsForRouterRecord_eq_contribs, getPathsForRouterRecord_eq_contribs]
  unfold contribs
  rw [leaves_flattenTree]

/-- C6: the returned document has `openapi = "3.1.0"`, `info.title` and
`info.version` copied from the arguments, `components` the empty object, and
(by the shape of `OpenApiDocument`) no other top-level keys; an empty tree
yields empty paths regardless of base path. -/
theorem claim_document_shape (toJSONSchema : ZodType → Schema)
    (apiTitle apiVersion basePath : String) (tree : RouterRec) :
    (trpc2OpenApi toJSONSchema apiTitle apiVersion basePath tree).openapi =
      "3.1.0" ∧
    (trpc2OpenApi toJSONSchema apiTitle apiVersion basePath tree).info =
      { title := apiTitle, version := apiVersion } ∧
    (trpc2OpenApi toJSONSchema apiTitle apiVersion basePath
      tree).components = [] ∧
    (trpc2OpenApi toJSONSchema apiTitle apiVersion basePath tree).paths =
      getPathsForRouterRecord toJSONSchema basePath tree ∧
    (trpc2OpenApi toJSONSchema apiTitle apiVersion basePath []).paths =
      [] := by
  refine ⟨rfl, rfl, rfl, rfl, ?_⟩
  show getPathsForRouterRecord toJSONSchema basePath [] = []
  rw [getPathsForRouterRecord_eq_contribs, contribs_nil, objAssign_nil]

/-- C7: reading any route from the walked paths returns the value of the
last leaf fragment written to that route (last write wins, in depth-first
declaration order); and permuting the entries of the tree leaves every route
lookup unchanged provided no two leaf procedures contribute the same literal
full-route string. -/
theorem claim_order_independence (toJSONSchema : ZodType → Schema)
    (b : String) :
    (∀ (es : RouterRec) (r : String),
      getKey (getPathsForRouterRecord toJSONSchema b es) r =
        ((contribs toJSONSchema b es).reverse.find?
          (fun q => q.1 == r)).map (fun q => q.2)) ∧
    (∀ (es₁ es₂ : RouterRec), es₁.Perm es₂ →
      ((contribs toJSONSchema b es₁).map Prod.fst).Nodup →
      ∀ r : String,
        getKey (getPathsForRouterRecord toJSONSchema b es₁) r =
          getKey (getPathsForRouterRecord toJSONSchema b es₂) r) := by
  refine ⟨getKey_getPathsForRouterRecord toJSONSchema b, ?_⟩
  intro es₁ es₂ hperm hnd r
  rw [getKey_getPathsForRouterRecord, getKey_getPathsForRouterRecord]
  have hc : (contribs toJSONSchema b es₁).Perm
      (contribs toJSONSchema b es₂) := contribs_perm toJSONSchema b hperm
  have hrev : (contribs toJSONSchema b es₁).reverse.Perm
      (contribs toJSONSchema b es₂).reverse :=
    ((List.reverse_perm _).trans hc).trans (List.reverse_perm _).symm
  have hndrev :
      ((contribs toJSONSchema b es₁).reverse.map Prod.fst).Nodup := by
    rw [List.map_reverse]
    exact List.nodup_reverse.mpr hnd
  rw [find?_key_eq_of_perm hrev hndrev r]

/-- Witness for C7: a two-procedure tree and its swap agree on every route
lookup, and a lookup equals the last write of the fragment stream. -/
theorem claim_order_independence_witness :
    (getKey (getPathsForRouterRecord convW ("/t") pairTreeW) ("/t/q") =
      ((contribs convW ("/t") pairTreeW).reverse.find?
        (fun q => q.1 == ("/t/q"))).map (fun q => q.2)) ∧
    (∀ r : String,
      getKey (getPathsForRouterRecord convW ("/t") pairTreeW) r =
        getKey (getPathsForRouterRecord convW ("/t") pairTreeW2) r) :=
  ⟨(claim_order_independence convW ("/t")).1 pairTreeW ("/t/q"),
   (claim_order_independence convW ("/t")).2 pairTreeW pairTreeW2
     (List.Perm.swap _ _ _)
     (by simp [contribs, leaves, pairTreeW, qProcW, mProcW, convW,
       getPathsForProcedure, PROCEDURE_TYPE_HTTP_METHOD_MAP])⟩

/-- C8: every route key present in the walked paths maps to a path item
holding exactly one HTTP method entry (a later colliding procedure replaces
the whole single-method path object, so two methods never coexist). -/
theorem claim_single_method_per_route (toJSONSchema : ZodType → Schema)
    (b : String) (es : RouterRec) (r : String) (item : PathItem)
    (h : getKey (getPathsForRouterRecord toJSONSchema b es) r = some item) :
    ∃ (m : String) (op : OperationObject), item = [(m, op)] := by
  obtain ⟨n, p, m, op, _, _, _, hitem⟩ := getKey_walk_origin _ _ _ _ _ h
  exact ⟨m, op, hitem⟩

/-- Witness for C8 at a tree where a nested query and a sibling mutation
collide on route "/t/a": the single-method item of the later mutation survives. -/
theorem claim_single_method_per_route_witness :
    ∃ (m : String) (op : OperationObject),
      [(("post"), opMW)] = [(m, op)] :=
  claim_single_method_per_route convW ("/t") treeColl ("/t/a")
    [(("post"), opMW)]
    (by simp [getPathsForRouterRecord, pathsForEntries, getPathsForProcedure,
      treeColl, qProcW, mProcW, convW, opMW, objAssign, setKey, getKey,
      PROCEDURE_TYPE_HTTP_METHOD_MAP])

/-- C9: the translator reads only `inputs[0]`; a procedure with several
declared inputs translates exactly as the same procedure with every entry
after the first removed. -/
theorem claim_first_input_only (toJSONSchema : ZodType → Schema)
    (b n : String) (p : ProcedureDef) (h : 1 < p.inputs.length) :
    getPathsForProcedure toJSONSchema b n p =
      getPathsForProcedure toJSONSchema b n
        { type := p.type, inputs := p.inputs.take 1,
          output := p.output } := by
  rcases p with ⟨ty, ins, out⟩
  cases ins with
  | nil => simp at h
  | cons t ins => rfl

/-- Witness for C9 at a mutation with two declared inputs. -/
theorem claim_first_input_only_witness :
    getPathsForProcedure convW ("/t") ("n") p2W =
      getPathsForProcedure convW ("/t") ("n")
        { type := p2W.type, inputs := p2W.inputs.take 1,
          output := p2W.output } :=
  claim_first_input_only convW ("/t") ("n") p2W (by decide)

/-- C10: the entry point is deterministic: equal inputs (under the same
conversion service) produce equal documents; there is no hidden state, and
the pure embedding mutates nothing. -/
theorem claim_purity_determinism (toJSONSchema : ZodType → Schema)
    (t₁ v₁ b₁ : String) (tr₁ : RouterRec) (t₂ v₂ b₂ : String)
    (tr₂ : RouterRec) (ht : t₁ = t₂) (hv : v₁ = v₂) (hb : b₁ = b₂)
    (htr : tr₁ = tr₂) :
    trpc2OpenApi toJSONSchema t₁ v₁ b₁ tr₁ =
      trpc2OpenApi toJSONSchema t₂ v₂ b₂ tr₂ := by
  rw [ht, hv, hb, htr]

/-- Witness for C10 at a concrete invocation. -/
theorem claim_purity_determinism_witness :
    trpc2OpenApi convW ("T") ("1.0") ("/t") treeW =
      trpc2OpenApi convW ("T") ("1.0") ("/t") treeW :=
  claim_purity_determinism convW ("T") ("1.0") ("/t") treeW ("T") ("1.0")
    ("/t") treeW rfl rfl rfl rfl
